import Mathlib

/-!
# Verification of the Ragbackend retrieval pipeline

Shallow embedding, in Lean 4, of the ranking / context-assembly pipeline of
the `Ragbackend` repository (`src/services/ragRetrievalService.js`,
`src/services/databaseService.js`, `src/routes/chat.js`), together with
theorems settling the specification claims about it.

JavaScript strings are modelled as Lean `String` / `List Char`; JS numbers
appearing as similarity scores and thresholds are modelled as `ℚ` (all the
comparisons the claims exercise are exact decimal comparisons); fallible or
optional JS fields are modelled with `Option`.
-/

namespace Ragbackend

/-! ## JS string primitives

`String.prototype.toLowerCase`, `trim`, `split(/\s+/)`, `includes`,
`indexOf`, modelled over `List Char`.  JS `\s` is modelled by
ASCII whitespace (space, tab, newline, carriage return, form feed,
vertical tab), which covers every string the services handle. -/

/-- The characters JS `\s` matches (ASCII fragment). -/
def isWs (c : Char) : Bool :=
  c = ' ' || c = '\t' || c = '\n' || c = '\r' || c = '\x0c' || c = '\x0b'

/-- JS `\w` word characters: `[A-Za-z0-9_]`. -/
def wordChar (c : Char) : Bool :=
  (c ≥ 'a' && c ≤ 'z') || (c ≥ 'A' && c ≤ 'Z') || (c ≥ '0' && c ≤ '9') || c = '_'

/-- Collapse every maximal run of whitespace to a single space
(the effect of `.replace(/\s+/g, ' ')` on a char list). -/
def collapseWs : List Char → List Char
  | [] => []
  | [c] => [if isWs c then ' ' else c]
  | c :: d :: rest =>
    if isWs c && isWs d then collapseWs (d :: rest)
    else (if isWs c then ' ' else c) :: collapseWs (d :: rest)

/-- Split a char list at each space, keeping empty fields
(the behaviour of JS `String.prototype.split` on a separator). -/
def splitCh : List Char → List Char → List String
  | [], cur => [String.mk cur.reverse]
  | c :: rest, cur =>
    if c = ' ' then String.mk cur.reverse :: splitCh rest []
    else splitCh rest (c :: cur)

/-- JS `s.split(/\s+/)`: collapse whitespace runs, then split on the
single separator.  Reproduces JS quirks: `"".split` is `[""]`, leading or
trailing whitespace yields an empty first or last field. -/
def jsSplitWs (s : String) : List String :=
  splitCh (collapseWs s.data) []

/-- JS `String.prototype.toLowerCase` (ASCII). -/
def jsLower (s : String) : String :=
  String.mk (s.data.map Char.toLower)

/-- JS `hay.includes(needle)`: substring containment. -/
def jsIncludes (hay needle : String) : Bool :=
  decide (needle.data <:+: hay.data)

/-- First index at which `pat` occurs in `hay`
(JS `hay.indexOf(pat)`, with `none` for `-1`). -/
def listIndexOfAux (pat : List Char) : List Char → Nat → Option Nat
  | [], i => if pat = [] then some i else none
  | c :: rest, i =>
    if pat <+: (c :: rest) then some i else listIndexOfAux pat rest (i + 1)

/-- JS `hay.indexOf(pat)` as an `Option Nat`. -/
def jsIndexOf (hay pat : String) : Option Nat :=
  listIndexOfAux pat.data hay.data 0

/-- JS `s.substring(a, b)` (for `a ≤ b`): characters `a` to `b-1`. -/
def jsSubstring (s : String) (a b : Nat) : String :=
  String.mk ((s.data.drop a).take (b - a))

/-! ## `calculateStringSimilarity` (ragRetrievalService.js lines 405-413)

```js
calculateStringSimilarity(str1, str2) {
  const set1 = new Set(str1.split(/\s+/));
  const set2 = new Set(str2.split(/\s+/));
  const intersection = new Set([...set1].filter(x => set2.has(x)));
  const union = new Set([...set1, ...set2]);
  return intersection.size / union.size;
}
```
-/

/-- The set of whitespace-delimited fields of a string. -/
def wordSet (s : String) : Finset String :=
  (jsSplitWs s).toFinset

/-- Jaccard similarity of the whitespace-tokenized word sets of two
strings, as in the source's `calculateStringSimilarity`.  The source
computes `intersection.size / union.size`; we build the same rational with
`mkRat` (see `calculateStringSimilarity_eq_div`), which keeps the
definition evaluable inside the kernel. -/
def calculateStringSimilarity (str1 str2 : String) : ℚ :=
  mkRat ((wordSet str1 ∩ wordSet str2).card : ℤ) ((wordSet str1 ∪ wordSet str2).card)

/-- `calculateStringSimilarity` is literally intersection size over union
size, as in the JS source. -/
theorem calculateStringSimilarity_eq_div (str1 str2 : String) :
    calculateStringSimilarity str1 str2 =
      ((wordSet str1 ∩ wordSet str2).card : ℚ) / ((wordSet str1 ∪ wordSet str2).card : ℚ) := by
  rw [calculateStringSimilarity, Rat.mkRat_eq_div]
  push_cast
  rfl

/-! ## Data model: search hits and formatted results

`SearchHit` carries the Qdrant payload fields the pipeline reads
(`title`, `text`, `type`, plus attribution metadata).  The payload itself
is optional (`result.payload?.…` in the source). -/

/-- Denormalized chunk fields attached to a Qdrant point. -/
structure Payload where
  title : Option String
  text : Option String
  type : Option String
  source : Option String
  category : Option String
  url : Option String
  published_date : Option String
  word_count : Option Nat
  char_count : Option Nat
deriving DecidableEq, Repr

/-- A raw similarity-search hit. -/
structure SearchHit where
  id : Nat
  score : ℚ
  payload : Option Payload
deriving DecidableEq, Repr

/-- A payload with only a title and a text, every other field absent. -/
def Payload.simple (title text : Option String) : Payload :=
  ⟨title, text, none, none, none, none, none, none, none⟩

/-- `result.payload?.title?.toLowerCase() || ''` — the normalized title a
hit contributes to the diversity check. -/
def SearchHit.lowerTitle (h : SearchHit) : String :=
  match h.payload with
  | some p =>
    match p.title with
    | some t => jsLower t
    | none => ""
  | none => ""

/-- Round a score to four decimal places
(`parseFloat(result.score.toFixed(4))`); round half away from zero,
which for the non-negative similarity scores is round half up. -/
def roundTo4 (q : ℚ) : ℚ :=
  mkRat (Int.fdiv (2 * (q.num * 10000) + q.den) (2 * q.den)) 10000

/-- Metadata block of a formatted result (`formatSearchResult`). -/
structure ResultMetadata where
  title : Option String
  source : Option String
  category : Option String
  url : Option String
  published_date : Option String
  word_count : Option Nat
  char_count : Option Nat
deriving DecidableEq, Repr

/-- The shape `formatSearchResult` returns. -/
structure FormattedResult where
  id : Nat
  score : ℚ
  content : String
  chunk_type : String
  metadata : Option ResultMetadata
deriving DecidableEq, Repr

/-! ## `formatSearchResult` (ragRetrievalService.js lines 319-340) -/

/-- Format one search hit: id, rounded score, `payload?.text || ''`,
`payload?.type || 'content'`, and — when `includeMetadata` and a payload
is present — the attribution metadata. -/
def formatSearchResult (result : SearchHit) (includeMetadata : Bool) : FormattedResult :=
  { id := result.id
    score := roundTo4 result.score
    content := (result.payload.bind Payload.text).getD ""
    chunk_type := (result.payload.bind Payload.type).getD "content"
    metadata :=
      match includeMetadata, result.payload with
      | true, some p => some ⟨p.title, p.source, p.category, p.url,
          p.published_date, p.word_count, p.char_count⟩
      | _, _ => none }

/-! ## `postProcessResults` (ragRetrievalService.js lines 279-314)

```js
postProcessResults(results, options = {}) {
  const { targetCount, diversityThreshold = 0.8, includeMetadata = true } = options;
  if (!results || results.length === 0) return [];
  results.sort((a, b) => b.score - a.score);
  const diverseResults = [];
  const usedTitles = new Set();
  for (const result of results) {
    if (diverseResults.length >= targetCount) break;
    const title = result.payload?.title?.toLowerCase() || '';
    let tooSimilar = false;
    for (const usedTitle of usedTitles) {
      if (this.calculateStringSimilarity(title, usedTitle) > diversityThreshold) {
        tooSimilar = true; break;
      }
    }
    if (!tooSimilar) {
      diverseResults.push(this.formatSearchResult(result, includeMetadata));
      usedTitles.add(title);
    }
  }
  return diverseResults;
}
```

`Array.prototype.sort` with comparator `(a, b) => b.score - a.score` is a
stable descending sort by score, modelled by `List.insertionSort` (any
stable sort computes the same list).  Note the JS sort happens *in place*
on the caller's array — `sortByScoreDesc results` is also the state of the
input array after the call (see the frame theorems below).

The loop pushes each accepted hit's formatted form; we keep the accepted
raw hits (`selectDiverse`) and map `formatSearchResult` over them at the
end, which is the same computation since formatting does not feed back
into the loop. -/

/-- Stable descending sort by score (`results.sort((a, b) => b.score - a.score)`). -/
def sortByScoreDesc (results : List SearchHit) : List SearchHit :=
  List.insertionSort (fun a b => b.score ≤ a.score) results

/-- One acceptance test of the greedy loop: the candidate's normalized
title is too similar to some already-kept title. -/
def tooSimilar (diversityThreshold : ℚ) (title : String) (usedTitles : List String) : Bool :=
  usedTitles.any fun usedTitle => diversityThreshold < calculateStringSimilarity title usedTitle

/-- The greedy diversity loop over the (sorted) candidate list.
`usedTitles` holds the normalized titles accepted so far (newest first);
`accepted` holds the accepted raw hits in acceptance order. -/
def selectDiverseLoop (targetCount : Nat) (diversityThreshold : ℚ) :
    List SearchHit → List SearchHit → List String → List SearchHit
  | accepted, [], _ => accepted
  | accepted, result :: rest, usedTitles =>
    if targetCount ≤ accepted.length then accepted
    else
      let title := result.lowerTitle
      if tooSimilar diversityThreshold title usedTitles then
        selectDiverseLoop targetCount diversityThreshold accepted rest usedTitles
      else
        selectDiverseLoop targetCount diversityThreshold
          (accepted ++ [result]) rest (title :: usedTitles)

/-- The raw hits `postProcessResults` accepts, in output order. -/
def selectDiverse (results : List SearchHit) (targetCount : Nat)
    (diversityThreshold : ℚ) : List SearchHit :=
  selectDiverseLoop targetCount diversityThreshold [] (sortByScoreDesc results) []

/-- `postProcessResults`: sort by score descending, greedily keep hits
whose titles are not near-duplicates of an already-kept title, stop at
`targetCount`, and format each kept hit. -/
def postProcessResults (results : List SearchHit) (targetCount : Nat)
    (diversityThreshold : ℚ) (includeMetadata : Bool) : List FormattedResult :=
  (selectDiverse results targetCount diversityThreshold).map
    (formatSearchResult · includeMetadata)

/-- JS `Array.prototype.sort` sorts the caller's array in place, so this
is the state of the `results` argument after `postProcessResults`
returns (ragRetrievalService.js line 287 runs `results.sort(...)` before
the read-only greedy walk). -/
def postProcessInputAfterCall (results : List SearchHit) : List SearchHit :=
  sortByScoreDesc results

/-! ## `generateSnippet` (ragRetrievalService.js lines 371-400)

```js
generateSnippet(content, query, maxLength = 200) {
  const queryTerms = query.toLowerCase().split(/\s+/);
  const lowerContent = content.toLowerCase();
  let bestPosition = 0;
  let bestScore = 0;
  for (const term of queryTerms) {
    const position = lowerContent.indexOf(term);
    if (position !== -1) {
      const contextScore = queryTerms.filter(t =>
        lowerContent.substring(Math.max(0, position - 50), position + 50).includes(t)
      ).length;
      if (contextScore > bestScore) { bestScore = contextScore; bestPosition = Math.max(0, position - 50); }
    }
  }
  const snippet = content.substring(bestPosition, bestPosition + maxLength);
  const cleanSnippet = snippet.replace(/^\S*\s/, '').replace(/\s\S*$/, '');
  return cleanSnippet + (bestPosition + maxLength < content.length ? '...' : '');
}
```

`Math.max(0, position - 50)` is `position - 50` in `ℕ`. -/

/-- How many entries of `queryTerms` occur in the ±50-character window of
`lowerContent` around `position` (the loop body's `contextScore`). -/
def contextScoreAt (lowerContent : String) (queryTerms : List String) (position : Nat) : Nat :=
  (queryTerms.filter fun t =>
    jsIncludes (jsSubstring lowerContent (position - 50) (position + 50)) t).length

/-- One iteration of the candidate scan of `generateSnippet`: look up the
first occurrence of `term`, score the ±50 window around it, and replace
the running `(bestScore, bestPosition)` only on a strictly greater
score. -/
def snippetStep (lowerContent : String) (queryTerms : List String)
    (best : Nat × Nat) (term : String) : Nat × Nat :=
  match jsIndexOf lowerContent term with
  | none => best
  | some position =>
    let contextScore := contextScoreAt lowerContent queryTerms position
    if best.1 < contextScore then (contextScore, position - 50) else best

/-- The `(bestScore, bestPosition)` pair computed by the candidate scan of
`generateSnippet`: candidates are the first occurrences of each query
term, starting from `(0, 0)`. -/
def snippetScan (lowerContent : String) (queryTerms : List String) : Nat × Nat :=
  queryTerms.foldl (snippetStep lowerContent queryTerms) (0, 0)

/-- `snippet.replace(/^\S*\s/, '')`: if the list has a whitespace
character, drop everything up to and including the first one; otherwise
the regex does not match and the list is unchanged. -/
def dropLeadingWord (l : List Char) : List Char :=
  if (l.dropWhile fun c => !isWs c).isEmpty then l
  else (l.dropWhile fun c => !isWs c).tail

/-- `snippet.replace(/\s\S*$/, '')`: the end-anchored mirror image of
`dropLeadingWord`. -/
def dropTrailingWord (l : List Char) : List Char :=
  (dropLeadingWord l.reverse).reverse

/-- `generateSnippet`: pick the best anchor among the first occurrences of
the query terms, cut `maxLength` characters there, trim partial leading
and trailing words, and append `"..."` when the cut stops short of the
content's end. -/
def generateSnippet (content query : String) (maxLength : Nat := 200) : String :=
  let queryTerms := jsSplitWs (jsLower query)
  let lowerContent := jsLower content
  let bestPosition := (snippetScan lowerContent queryTerms).2
  let snippet := jsSubstring content bestPosition (bestPosition + maxLength)
  let cleanSnippet := String.mk (dropTrailingWord (dropLeadingWord snippet.data))
  cleanSnippet ++ (if bestPosition + maxLength < content.data.length then "..." else "")

/-- The number of distinct query terms of `query` that occur inside the
±50-character window of the (lower-cased) content around offset
`center`.  This is the quantity the specification's "best position"
clause talks about; `generateSnippet` is claimed to anchor the snippet at
an offset maximizing it. -/
def windowDistinctTermCount (content query : String) (center : Nat) : Nat :=
  ((jsSplitWs (jsLower query)).dedup.filter fun t =>
    jsIncludes (jsSubstring (jsLower content) (center - 50) (center + 50)) t).length

/-- Formalization of the claimed anchoring property: the snippet start
produced by the scan is `center - 50` for a window-score-maximizing
offset `center` of the content. -/
def anchorsAtBestOffset (content query : String) : Prop :=
  ∃ center ≤ content.data.length,
    (snippetScan (jsLower content) (jsSplitWs (jsLower query))).2 = center - 50 ∧
    ∀ p ≤ content.data.length,
      windowDistinctTermCount content query p ≤ windowDistinctTermCount content query center

/-! ## `preprocessQuery` / `extractKeyTerms` (ragRetrievalService.js lines 181-223) -/

/-- JS `String.prototype.trim` on a char list. -/
def jsTrimList (l : List Char) : List Char :=
  ((l.dropWhile isWs).reverse.dropWhile isWs).reverse

/-- Characters kept by `.replace(/[^\w\s.,!?-]/g, '')`. -/
def keepChar (c : Char) : Bool :=
  wordChar c || isWs c || c = '.' || c = ',' || c = '!' || c = '?' || c = '-'

/-- `true` iff the list is empty or starts with a non-word character —
whether a `\b` word boundary follows a just-matched word. -/
def headNonWord : List Char → Bool
  | [] => true
  | c :: _ => !wordChar c

/-- `.replace(/\bxy\b/g, r)` for a two-word-character pattern `xy`: scan
the list tracking whether the current position sits at a word boundary
(`atB`); replace each boundary-delimited occurrence of `x, y` by `r`.
The scan resumes after the matched pattern, exactly like the JS global
regex replace. -/
def replaceWord2 (x y : Char) (r : List Char) : Bool → List Char → List Char
  | _, [] => []
  | _, [c] => [c]
  | atB, c :: d :: rest =>
    if atB && c = x && d = y && headNonWord rest then
      r ++ replaceWord2 x y r false rest
    else
      c :: replaceWord2 x y r (!wordChar c) (d :: rest)

/-- `.replace(/\bai\b/g, 'artificial intelligence')`. -/
def replaceAi (l : List Char) : List Char :=
  replaceWord2 'a' 'i' "artificial intelligence".data true l

/-- `.replace(/\bml\b/g, 'machine learning')`. -/
def replaceMl (l : List Char) : List Char :=
  replaceWord2 'm' 'l' "machine learning".data true l

/-- The cleaning chain of `preprocessQuery`: lowercase, trim, collapse
whitespace, strip characters outside the whitelist, expand `ai` and
`ml`. -/
def cleanQuery (query : String) : String :=
  String.mk (replaceMl (replaceAi ((collapseWs (jsTrimList (jsLower query).data)).filter keepChar)))

/-- The stop-word set of `extractKeyTerms`. -/
def stopWords : List String :=
  ["the", "is", "are", "was", "were", "be", "been", "being", "have", "has", "had",
   "do", "does", "did", "will", "would", "could", "should", "may", "might", "must",
   "can", "shall", "a", "an", "and", "or", "but", "in", "on", "at", "to", "for",
   "of", "with", "by", "about", "what", "where", "when", "why", "how", "who"]

/-- `extractKeyTerms`: whitespace-split the query, keep words longer than
2 characters that are not stop words, take the first 5. -/
def extractKeyTerms (query : String) : List String :=
  ((jsSplitWs query).filter fun word =>
    2 < word.data.length && !stopWords.contains word).take 5

/-- `preprocessQuery`: clean the query, then — when the cleaned query is
shorter than 100 characters and some key term is not already a substring
of it — append up to 3 such terms. -/
def preprocessQuery (query : String) : String :=
  let processed := cleanQuery query
  let keyTerms := extractKeyTerms processed
  if 0 < keyTerms.length && processed.data.length < 100 then
    let enhancedTerms := keyTerms.filter fun term => !jsIncludes processed term
    if 0 < enhancedTerms.length then
      processed ++ " " ++ String.intercalate " " (enhancedTerms.take 3)
    else processed
  else processed

/-! ## `manageConversationContext` / `estimateTokens`
(databaseService.js lines 535-566) -/

/-- A conversation-history entry (id, role, content; the JS timestamp and
metadata fields do not influence any modelled computation and are
omitted). -/
structure ConversationMessage where
  id : String
  role : String
  content : String
deriving DecidableEq, Repr

/-- `estimateTokens`: `Math.ceil(text.length / 4)`, `0` for the empty
(falsy) string. -/
def estimateTokens (text : String) : Nat :=
  (text.data.length + 3) / 4

/-- Return shape of `manageConversationContext`. -/
structure ManagedContext where
  messages : List ConversationMessage
  totalTokens : Nat
  trimmedCount : Nat
deriving DecidableEq, Repr

/-- The newest-to-oldest accumulation loop of `manageConversationContext`:
walk the reversed history, `unshift`-ing (prepending) each message whose
estimated cost still fits the budget; stop at the first that does not. -/
def manageLoop (maxTokens : Nat) :
    List ConversationMessage → Nat → List ConversationMessage →
      List ConversationMessage × Nat
  | [], total, acc => (acc, total)
  | m :: rest, total, acc =>
    let t := estimateTokens m.content
    if total + t ≤ maxTokens then manageLoop maxTokens rest (total + t) (m :: acc)
    else (acc, total)

/-- `manageConversationContext`: keep the longest suffix of recent
messages whose estimated token total fits `maxTokens`, preserving
chronological order. -/
def manageConversationContext (messages : List ConversationMessage)
    (maxTokens : Nat := 2000) : ManagedContext :=
  let r := manageLoop maxTokens messages.reverse 0 []
  ⟨r.1, r.2, messages.length - r.1.length⟩

/-! ## `buildQdrantFilters` (ragRetrievalService.js lines 228-274) -/

/-- User-facing filter options.  `sources`/`categories` model the
`Array.isArray` guard: `some` is a JS array value (possibly empty),
`none` covers an absent or non-array value.  For the string dimensions,
`some ""` is the present-but-falsy JS value. -/
structure SearchFilters where
  sources : Option (List String)
  categories : Option (List String)
  dateFrom : Option String
  dateTo : Option String
  contentType : Option String
deriving DecidableEq, Repr

/-- The `{}` filter object. -/
def SearchFilters.empty : SearchFilters := ⟨none, none, none, none, none⟩

/-- One Qdrant `must` condition: `match.any` (OR over the listed values),
a `range` with optional inclusive bounds, or an exact `match.value`. -/
inductive QdrantCondition where
  | matchAny (key : String) (values : List String)
  | range (key : String) (gte lte : Option String)
  | matchValue (key : String) (value : String)
deriving DecidableEq, Repr

/-- JS truthiness of an optional string: present and non-empty. -/
def strTruthy : Option String → Bool
  | some s => s ≠ ""
  | none => false

/-- `buildQdrantFilters`: build the `must` clause list in source order
(sources, categories, date range, content type) and return `null`
(`none`) when it is empty.  The early `return null` for a key-less
filter object is behaviourally subsumed: with no populated dimension the
clause list is empty and the result is `none` either way. -/
def buildQdrantFilters (filters : SearchFilters) : Option (List QdrantCondition) :=
  let must : List QdrantCondition :=
    (match filters.sources with
      | some ss => [.matchAny "source" ss]
      | none => []) ++
    (match filters.categories with
      | some cs => [.matchAny "category" cs]
      | none => []) ++
    (if strTruthy filters.dateFrom || strTruthy filters.dateTo then
      [.range "published_date"
        (if strTruthy filters.dateFrom then filters.dateFrom else none)
        (if strTruthy filters.dateTo then filters.dateTo else none)]
      else []) ++
    (if strTruthy filters.contentType then
      [.matchValue "type" (filters.contentType.getD "")]
      else [])
  if must.isEmpty then none else some must

/-- Whether a given dimension of the filter options is populated, i.e.
passes the source's guard for emitting a clause. -/
def SearchFilters.populatedCount (f : SearchFilters) : Nat :=
  (if f.sources.isSome then 1 else 0) +
  (if f.categories.isSome then 1 else 0) +
  (if strTruthy f.dateFrom || strTruthy f.dateTo then 1 else 0) +
  (if strTruthy f.contentType then 1 else 0)

/-! ## `generateCacheKey` / `searchDocuments` caching
(ragRetrievalService.js lines 40-134 and 451-464)

```js
generateCacheKey(query, options) {
  const queryHash = crypto.createHash('sha256').update(query).digest('hex').substring(0, 16);
  const keyParts = ['search', queryHash,
    options.topK || this.defaultTopK,
    options.minScore || this.minSimilarityScore,
    JSON.stringify(options.filters || {})];
  return keyParts.join(':');
}
```

`searchDocuments` passes `{ topK, minScore, filters }` — and only those
three fields — to `getCachedResult` / `cacheResult`, with the
destructuring defaults `topK = 5`, `minScore = 0.3`, `filters = {}`
already applied.  The key is modelled as the tuple of its joined parts
(`join(':')` sends equal part tuples to equal strings), and the sha256
prefix as the query itself: the hash is a function of the query alone,
and no claim depends on its collision behaviour. -/

/-- The options record accepted by `searchDocuments`. -/
structure SearchOptions where
  topK : Option Nat
  minScore : Option ℚ
  filters : Option SearchFilters
  useCache : Option Bool
  includeMetadata : Option Bool
  diversityThreshold : Option ℚ
deriving DecidableEq, Repr

/-- `options.topK || default` (JS `||`: `0` also falls back). -/
def orDefaultNat (o : Option Nat) (d : Nat) : Nat :=
  match o with
  | some n => if n = 0 then d else n
  | none => d

/-- `options.minScore || default` (JS `||`: `0` also falls back). -/
def orDefaultRat (o : Option ℚ) (d : ℚ) : ℚ :=
  match o with
  | some q => if q = 0 then d else q
  | none => d

/-- The cache key `generateCacheKey` produces, as its tuple of parts:
literal `"search"`, the query-hash part, the resolved `topK`, the
resolved `minScore`, and the serialized filters. -/
def generateCacheKey (query : String) (topK : Option Nat) (minScore : Option ℚ)
    (filters : Option SearchFilters) : String × String × Nat × ℚ × SearchFilters :=
  ("search", query, orDefaultNat topK 5, orDefaultRat minScore (mkRat 3 10),
    filters.getD SearchFilters.empty)

/-- The cache key a `searchDocuments` call uses: the destructuring
defaults of `searchDocuments` are applied first, then the key is built
from `{ topK, minScore, filters }` only. -/
def searchDocumentsCacheKey (query : String) (options : SearchOptions) :
    String × String × Nat × ℚ × SearchFilters :=
  generateCacheKey query (some (options.topK.getD 5))
    (some (options.minScore.getD (mkRat 3 10)))
    (some (options.filters.getD SearchFilters.empty))

/-! ## The chat turn handler (routes/chat.js lines 23-127)

The handler, in order: validates the message, resolves the session,
**appends the user turn to the Redis history** (line 52), runs the RAG
pipeline inside `try`/`catch` (lines 58-96, a caught failure produces the
canned fallback response), then appends the assistant turn (line 107).
`RAGChatService.processMessage` only reads history.  The embedding
records the history visible to the session store when the pipeline
starts and when the handler finishes. -/

/-- The canned fallback content of the chat route's `catch` branch. -/
def fallbackContent : String :=
  "I'm experiencing some technical difficulties. Please try again later."

/-- Observable history states of one chat turn. -/
structure ChatTurnTrace where
  historyAtPipelineStart : List ConversationMessage
  finalHistory : List ConversationMessage
  fallbackUsed : Bool
deriving DecidableEq, Repr

/-- One run of the `POST /api/chat` handler over an initial session
history `h0`: append the user turn, run the pipeline (`Except` models the
`try`/`catch`), append the assistant turn (the pipeline's answer, or the
fallback when it threw). -/
def chatTurn (h0 : List ConversationMessage) (userId assistantId : String)
    (message : String) (pipeline : Except String String) : ChatTurnTrace :=
  let afterUser := h0 ++ [⟨userId, "user", String.mk (jsTrimList message.data)⟩]
  match pipeline with
  | .ok content =>
    ⟨afterUser, afterUser ++ [⟨assistantId, "assistant", content⟩], false⟩
  | .error _ =>
    ⟨afterUser, afterUser ++ [⟨assistantId, "assistant", fallbackContent⟩], true⟩

/-! ## Scan predicates used to reason about `preprocessQuery`

`hasM x y b l` mirrors the recursion of `replaceWord2`: it is `true` iff
the boundary-tracking scan starting in state `b` finds a `\b x y \b`
match in `l`.  The whitespace-shape predicates characterize the strings
on which the cleaning steps of `preprocessQuery` are the identity. -/

/-- Whether the global-replace scan finds a boundary-delimited `x y`
occurrence (mirrors `replaceWord2` step by step). -/
def hasM (x y : Char) : Bool → List Char → Bool
  | _, [] => false
  | _, [_] => false
  | atB, c :: d :: rest =>
    (atB && c = x && d = y && headNonWord rest) || hasM x y (!wordChar c) (d :: rest)

/-- An adjacent pair is acceptable unless both characters are
whitespace. -/
def pairOk : Option Char → Option Char → Bool
  | some c, some d => !(isWs c && isWs d)
  | _, _ => true

/-- No two adjacent whitespace characters. -/
def noWsPair : List Char → Bool
  | [] => true
  | [_] => true
  | c :: d :: rest => !(isWs c && isWs d) && noWsPair (d :: rest)

/-- Every whitespace character is a plain space. -/
def wsIsSpace (l : List Char) : Bool :=
  l.all fun c => !isWs c || c = ' '

/-- The first character, if any, is not whitespace. -/
def headNotWs (l : List Char) : Bool :=
  l.head?.all fun c => !isWs c

/-- The clause the date dimension contributes when populated. -/
def dateRangeClause (f : SearchFilters) : QdrantCondition :=
  .range "published_date"
    (if strTruthy f.dateFrom then f.dateFrom else none)
    (if strTruthy f.dateTo then f.dateTo else none)

/-! ## Concrete inputs used by scenario theorems and counterexamples -/

/-- Scenario hit `{title: "Fed raises rates", score: 0.9}`. -/
def fedHit1 : SearchHit := ⟨1, mkRat 9 10, some (Payload.simple (some "Fed raises rates") none)⟩

/-- Scenario hit `{title: "Fed raises interest rates", score: 0.85}`. -/
def fedHit2 : SearchHit :=
  ⟨2, mkRat 85 100, some (Payload.simple (some "Fed raises interest rates") none)⟩

/-- Scenario hit `{title: "Stock market falls", score: 0.8}`. -/
def stockHit : SearchHit := ⟨3, mkRat 8 10, some (Payload.simple (some "Stock market falls") none)⟩

/-- Two hits sharing one normalized title. -/
def dupHitA : SearchHit := ⟨10, mkRat 9 10, some (Payload.simple (some "Same Title") none)⟩

/-- Second hit with the identical title. -/
def dupHitB : SearchHit := ⟨11, mkRat 8 10, some (Payload.simple (some "Same Title") none)⟩

/-- A content string whose densest passage (`"alpha beta"` at offset 150)
contains no *first* occurrence of a query term: `"alpha"` first occurs at
offset 0 and `"beta"` at offset 97, each more than 50 characters from any
other term. -/
def c3content : String :=
  "alpha" ++ String.mk (List.replicate 92 'x') ++ "beta" ++
    String.mk (List.replicate 49 'x') ++ "alpha beta"

/-- The two-term query for the snippet counterexample. -/
def c3query : String := "alpha beta"

end Ragbackend

/-! # Theorems -/

set_option maxRecDepth 200000

namespace Ragbackend

/-! ## Shared helper lemmas -/

/-- Jaccard similarity is symmetric. -/
theorem calculateStringSimilarity_comm (s t : String) :
    calculateStringSimilarity s t = calculateStringSimilarity t s := by
  unfold calculateStringSimilarity
  rw [Finset.inter_comm, Finset.union_comm]

/-- `splitCh` never returns an empty list. -/
theorem splitCh_ne_nil (l : List Char) : ∀ cur, splitCh l cur ≠ [] := by
  induction l with
  | nil => intro cur; simp [splitCh]
  | cons c rest ih =>
    intro cur
    by_cases h : c = ' '
    · simp [splitCh, h]
    · simp only [splitCh, if_neg h]
      exact ih _

/-- JS `split` never returns an empty array. -/
theorem jsSplitWs_ne_nil (s : String) : jsSplitWs s ≠ [] :=
  splitCh_ne_nil (collapseWs s.data) []

/-- The word set of a string is nonempty. -/
theorem wordSet_nonempty (s : String) : (wordSet s).Nonempty := by
  rw [wordSet, List.toFinset_nonempty_iff]
  exact jsSplitWs_ne_nil s

/-- Jaccard similarity of a string with itself is `1`. -/
theorem calculateStringSimilarity_self (t : String) :
    calculateStringSimilarity t t = 1 := by
  unfold calculateStringSimilarity
  rw [Finset.inter_self, Finset.union_self]
  have h : ((wordSet t).card : ℚ) ≠ 0 := by
    exact_mod_cast Finset.card_ne_zero.mpr (wordSet_nonempty t)
  rw [Rat.mkRat_eq_div]
  push_cast
  exact div_self h

/-! ## C1 — the three-hit ranking scenario -/

/-- C1 (counterexample): on the scenario input
`[{title:"Fed raises rates", score:0.9}, {title:"Fed raises interest
rates", score:0.85}, {title:"Stock market falls", score:0.8}]` with
`targetCount = 3` and `diversityThreshold = 0.8`, the Ranker does *not*
return exactly 2 results: it returns 3, because the Jaccard similarity of
the first two titles is `3/4`, which does not exceed `0.8`, so the
0.85-scored hit is not rejected. -/
theorem c1_scenario_counterexample :
    (postProcessResults [fedHit1, fedHit2, stockHit] 3 (mkRat 8 10) true).length ≠ 2 := by
  decide

/-- C1 (amended): the scenario call returns all three hits, in score
order `0.9, 0.85, 0.8`; the 0.85-scored hit is kept because
`Jaccard("fed raises interest rates", "fed raises rates") = 3/4 ≤ 0.8`. -/
theorem c1_scenario_amended :
    (postProcessResults [fedHit1, fedHit2, stockHit] 3 (mkRat 8 10) true).map
        FormattedResult.id = [1, 2, 3] ∧
      calculateStringSimilarity (jsLower "Fed raises interest rates")
        (jsLower "Fed raises rates") = mkRat 3 4 := by
  constructor
  · decide
  · decide

/-! ## C5 — history writes versus the pipeline -/

/-- C5 (counterexample): the chat handler appends the user turn to the
session history *before* the RAG pipeline runs (chat.js line 52 precedes
the `ragChatService.processMessage` call at line 61): on an empty session
the history visible at pipeline start is not the pre-turn history. -/
theorem c5_counterexample :
    (chatTurn [] "u1" "a1" "hello" (Except.ok "reply")).historyAtPipelineStart ≠ [] := by
  decide

/-- C5 (amended): in every chat turn the user entry is committed before
the pipeline runs (the history at pipeline start is the old history plus
the user turn), and the assistant entry — the pipeline's answer on
success, the canned fallback on a caught failure — is appended
afterwards, so the completed turn always adds exactly the user turn and
one assistant turn. -/
theorem c5_amended (h0 : List ConversationMessage) (userId assistantId : String)
    (message : String) (pipeline : Except String String) :
    (chatTurn h0 userId assistantId message pipeline).historyAtPipelineStart =
        h0 ++ [⟨userId, "user", String.mk (jsTrimList message.data)⟩] ∧
      ∃ a : ConversationMessage, a.role = "assistant" ∧
        (chatTurn h0 userId assistantId message pipeline).finalHistory =
          (chatTurn h0 userId assistantId message pipeline).historyAtPipelineStart ++ [a] := by
  cases pipeline with
  | ok content => exact ⟨rfl, ⟨assistantId, "assistant", content⟩, rfl, rfl⟩
  | error e => exact ⟨rfl, ⟨assistantId, "assistant", fallbackContent⟩, rfl, rfl⟩

/-! ## C8 — identical titles -/

/-- C8 (counterexample): with `diversityThreshold = 1` two hits whose
normalized titles are identical are *both* accepted (their Jaccard
similarity `1.0` is not `> 1`), refuting the "for every
diversityThreshold" quantifier of the claim. -/
theorem c8_counterexample :
    dupHitA.lowerTitle = dupHitB.lowerTitle ∧
      (selectDiverse [dupHitA, dupHitB] 2 (mkRat 1 1)).map SearchHit.id = [10, 11] := by
  constructor
  · decide
  · decide

/-! ## C9 — the Ranker mutates its input array -/

/-- C9 (counterexample): `postProcessResults` sorts its input array in
place (`results.sort(...)`, ragRetrievalService.js line 287), so after a
call on a not-yet-sorted array the caller's array has changed. -/
theorem c9_counterexample :
    postProcessInputAfterCall [stockHit, fedHit1] ≠ [stockHit, fedHit1] := by
  decide

/-! ## C10 — the cache key ignores `diversityThreshold` and
`includeMetadata` -/

/-- C10: the search-result cache key depends only on the query, `topK`,
`minScore` and `filters`: two `searchDocuments` calls whose options
differ only in `diversityThreshold` or `includeMetadata` (or the cache
toggle) produce the same cache key, so a result cached under one
diversity threshold is returned for a request made with another. -/
theorem c10_cache_key_ignores_diversity (query : String) (options : SearchOptions)
    (dt : Option ℚ) (im useCache : Option Bool) :
    searchDocumentsCacheKey query
        { options with diversityThreshold := dt, includeMetadata := im, useCache := useCache } =
      searchDocumentsCacheKey query options := rfl

/-! ## C3 — the snippet anchor -/

/-- One scan step never lowers the running best score. -/
theorem snippetStep_fst_le (lc : String) (qt : List String) (best : Nat × Nat)
    (term : String) : best.1 ≤ (snippetStep lc qt best term).1 := by
  unfold snippetStep
  cases jsIndexOf lc term with
  | none => exact Nat.le_refl _
  | some position =>
    simp only []
    split
    · exact Nat.le_of_lt (by assumption)
    · exact Nat.le_refl _

/-- The folded scan never lowers the running best score. -/
theorem snippetScan_fold_mono (lc : String) (qt : List String) :
    ∀ (l : List String) (init : Nat × Nat),
      init.1 ≤ (l.foldl (snippetStep lc qt) init).1 := by
  intro l
  induction l with
  | nil => intro init; exact Nat.le_refl _
  | cons term rest ih =>
    intro init
    exact Nat.le_trans (snippetStep_fst_le lc qt init term) (ih _)

/-- The folded best score dominates the window score of every candidate
(first occurrence of a scanned term). -/
theorem snippetScan_fold_ub (lc : String) (qt : List String) :
    ∀ (l : List String) (init : Nat × Nat) (term : String),
      term ∈ l → ∀ pos, jsIndexOf lc term = some pos →
        contextScoreAt lc qt pos ≤ (l.foldl (snippetStep lc qt) init).1 := by
  intro l
  induction l with
  | nil => intro init term h; cases h
  | cons head rest ih =>
    intro init term hmem pos hidx
    rcases List.mem_cons.mp hmem with heq | hmem'
    · subst heq
      have hstep : contextScoreAt lc qt pos ≤ (snippetStep lc qt init term).1 := by
        unfold snippetStep
        rw [hidx]
        simp only []
        split
        · exact Nat.le_refl _
        · exact Nat.le_of_not_lt (by assumption)
      exact Nat.le_trans hstep (snippetScan_fold_mono lc qt rest _)
    · exact ih _ term hmem' pos hidx

/-- The folded result is either the untouched initial pair or the window
score and anchor of some scanned candidate. -/
theorem snippetScan_fold_provenance (lc : String) (qt : List String) :
    ∀ (l : List String) (init : Nat × Nat),
      l.foldl (snippetStep lc qt) init = init ∨
        ∃ term ∈ l, ∃ pos, jsIndexOf lc term = some pos ∧
          (l.foldl (snippetStep lc qt) init).1 = contextScoreAt lc qt pos ∧
          (l.foldl (snippetStep lc qt) init).2 = pos - 50 := by
  intro l
  induction l with
  | nil => intro init; exact Or.inl rfl
  | cons head rest ih =>
    intro init
    rw [List.foldl_cons]
    rcases hstep : snippetStep lc qt init head with ⟨s, p⟩
    by_cases hsame : (s, p) = init
    · rcases ih (s, p) with h | ⟨term, hmem, pos, hidx, h1, h2⟩
      · exact Or.inl (h.trans hsame)
      · exact Or.inr ⟨term, List.mem_cons_of_mem _ hmem, pos, hidx, h1, h2⟩
    · have hcand : ∃ pos, jsIndexOf lc head = some pos ∧
          s = contextScoreAt lc qt pos ∧ p = pos - 50 := by
        unfold snippetStep at hstep
        rcases hidx : jsIndexOf lc head with _ | position
        · rw [hidx] at hstep
          exact absurd hstep.symm (by simpa using hsame)
        · rw [hidx] at hstep
          simp only [] at hstep
          by_cases hlt : init.1 < contextScoreAt lc qt position
          · rw [if_pos hlt] at hstep
            have h1 : contextScoreAt lc qt position = s := congrArg Prod.fst hstep
            have h2 : position - 50 = p := congrArg Prod.snd hstep
            exact ⟨position, rfl, h1.symm, h2.symm⟩
          · rw [if_neg hlt] at hstep
            exact absurd hstep.symm (by simpa using hsame)
      obtain ⟨pos, hidx, hs, hp⟩ := hcand
      rcases ih (s, p) with h | ⟨term, hmem, pos', hidx', h1, h2⟩
      · refine Or.inr ⟨head, List.mem_cons_self _ _, pos, hidx, ?_, ?_⟩
        · rw [h]; exact hs
        · rw [h]; exact hp
      · exact Or.inr ⟨term, List.mem_cons_of_mem _ hmem, pos', hidx', h1, h2⟩

/-- If no scanned term occurs, the scan never moves. -/
theorem snippetScan_fold_default (lc : String) (qt : List String) :
    ∀ (l : List String) (init : Nat × Nat),
      (∀ term ∈ l, jsIndexOf lc term = none) →
        l.foldl (snippetStep lc qt) init = init := by
  intro l
  induction l with
  | nil => intro init _; rfl
  | cons head rest ih =>
    intro init hnone
    rw [List.foldl_cons]
    have hstep : snippetStep lc qt init head = init := by
      unfold snippetStep
      rw [hnone head (List.mem_cons_self _ _)]
    rw [hstep]
    exact ih init fun term h => hnone term (List.mem_cons_of_mem _ h)

/-- C3 (counterexample): the snippet anchor is *not* the offset
maximizing the count of distinct query terms in the ±50 window.  On
`c3content` (where `"alpha"` and `"beta"` first occur far apart but
co-occur at offset 150) the scan anchors at 0, whose neighbourhood
contains one query term, while offset 155's window contains both. -/
theorem c3_counterexample : ¬ anchorsAtBestOffset c3content c3query := by
  rintro ⟨center, hcle, hanchor, hmax⟩
  have h0 : (snippetScan (jsLower c3content) (jsSplitWs (jsLower c3query))).2 = 0 := by decide
  rw [h0] at hanchor
  have hcenter : center ≤ 50 := by omega
  have hub : ∀ cc ≤ 50, windowDistinctTermCount c3content c3query cc ≤ 1 := by decide
  have h155 : windowDistinctTermCount c3content c3query 155 = 2 := by decide
  have hlen : (155 : Nat) ≤ c3content.data.length := by decide
  have := hmax 155 hlen
  have := hub center hcenter
  omega

/-- C3 (amended): the snippet anchor maximizes the ±50-window score only
among the *first occurrences of the query terms*: the scan's best score
dominates every candidate's window score; the returned anchor is either
the default 0 or `pos - 50` for the first occurrence `pos` of a term
achieving the best score; and when no query term occurs in the content
the scan stays at `(0, 0)`. -/
theorem c3_amended (content query : String) :
    (∀ term ∈ jsSplitWs (jsLower query), ∀ pos,
        jsIndexOf (jsLower content) term = some pos →
          contextScoreAt (jsLower content) (jsSplitWs (jsLower query)) pos ≤
            (snippetScan (jsLower content) (jsSplitWs (jsLower query))).1) ∧
      ((snippetScan (jsLower content) (jsSplitWs (jsLower query))).2 = 0 ∨
        ∃ term ∈ jsSplitWs (jsLower query), ∃ pos,
          jsIndexOf (jsLower content) term = some pos ∧
            (snippetScan (jsLower content) (jsSplitWs (jsLower query))).1 =
              contextScoreAt (jsLower content) (jsSplitWs (jsLower query)) pos ∧
            (snippetScan (jsLower content) (jsSplitWs (jsLower query))).2 = pos - 50) ∧
      ((∀ term ∈ jsSplitWs (jsLower query), jsIndexOf (jsLower content) term = none) →
        snippetScan (jsLower content) (jsSplitWs (jsLower query)) = (0, 0)) := by
  refine ⟨?_, ?_, ?_⟩
  · intro term hmem pos hidx
    exact snippetScan_fold_ub _ _ _ (0, 0) term hmem pos hidx
  · rcases snippetScan_fold_provenance (jsLower content) (jsSplitWs (jsLower query))
        (jsSplitWs (jsLower query)) (0, 0) with h | h
    · exact Or.inl (by rw [snippetScan, h])
    · exact Or.inr h
  · intro hnone
    exact snippetScan_fold_default _ _ _ (0, 0) hnone

/-- C3 witness: on a concrete content/query pair, the window score of the
candidate at `"interest"`'s first occurrence (position 15) is bounded by
the scan's best score. -/
theorem c3_amended_witness :
    contextScoreAt (jsLower "the fed raised interest rates")
        (jsSplitWs (jsLower "interest rates")) 15 ≤
      (snippetScan (jsLower "the fed raised interest rates")
        (jsSplitWs (jsLower "interest rates"))).1 :=
  (c3_amended "the fed raised interest rates" "interest rates").1 "interest"
    (by decide) 15 (by decide)

/-! ## C6 — the filter builder -/

/-- C6: `buildQdrantFilters` returns the `null` sentinel exactly when no
dimension is populated; it never returns an empty-but-present filter; and
when it does return a filter, each populated dimension contributes exactly
one AND-ed clause, with the multi-valued sources and categories
dimensions OR-matched (`match.any`) inside their clause. -/
theorem c6_filter_builder (f : SearchFilters) :
    (buildQdrantFilters f = none ↔
      f.sources = none ∧ f.categories = none ∧
        strTruthy f.dateFrom = false ∧ strTruthy f.dateTo = false ∧
        strTruthy f.contentType = false) ∧
    buildQdrantFilters f ≠ some [] ∧
    (∀ must, buildQdrantFilters f = some must →
      must.length = f.populatedCount ∧
      (∀ ss, f.sources = some ss → QdrantCondition.matchAny "source" ss ∈ must) ∧
      (∀ cs, f.categories = some cs → QdrantCondition.matchAny "category" cs ∈ must) ∧
      ((strTruthy f.dateFrom || strTruthy f.dateTo) = true → dateRangeClause f ∈ must) ∧
      (strTruthy f.contentType = true →
        QdrantCondition.matchValue "type" (f.contentType.getD "") ∈ must)) := by
  obtain ⟨s, c, df, dt, ct⟩ := f
  rcases s with _ | ss <;> rcases c with _ | cs <;>
    by_cases hdf : strTruthy df <;> by_cases hdt : strTruthy dt <;>
    by_cases hct : strTruthy ct <;>
    simp_all [buildQdrantFilters, SearchFilters.populatedCount, dateRangeClause]

/-- C6 witness: a filter populated only in the sources dimension yields
exactly the one OR-matching sources clause. -/
theorem c6_filter_builder_witness :
    ∀ must, buildQdrantFilters ⟨some ["bbc", "cnn"], none, none, none, none⟩ = some must →
      must.length =
        (SearchFilters.mk (some ["bbc", "cnn"]) none none none none).populatedCount ∧
      QdrantCondition.matchAny "source" ["bbc", "cnn"] ∈ must := by
  intro must hmust
  have h := (c6_filter_builder ⟨some ["bbc", "cnn"], none, none, none, none⟩).2.2 must hmust
  exact ⟨h.1, h.2.1 _ rfl⟩

/-! ## C4 — the token-budget invariant -/

/-- Estimated token cost of a message list. -/
def estTokenSum (l : List ConversationMessage) : Nat :=
  (l.map fun m => estimateTokens m.content).sum

/-- The running total of `manageLoop` never exceeds the budget it entered
with under. -/
theorem manageLoop_total_le (maxTokens : Nat) :
    ∀ (l : List ConversationMessage) (total : Nat) (acc : List ConversationMessage),
      total ≤ maxTokens → (manageLoop maxTokens l total acc).2 ≤ maxTokens := by
  intro l
  induction l with
  | nil => intro total acc h; exact h
  | cons m rest ih =>
    intro total acc h
    by_cases hfit : total + estimateTokens m.content ≤ maxTokens
    · simpa [manageLoop, hfit] using ih _ _ hfit
    · simpa [manageLoop, hfit] using h

/-- The running total of `manageLoop` is the estimated token sum of the
accumulated messages (up to what the accumulator already held). -/
theorem manageLoop_total_eq_sum (maxTokens : Nat) :
    ∀ (l : List ConversationMessage) (total : Nat) (acc : List ConversationMessage),
      estTokenSum (manageLoop maxTokens l total acc).1 + total =
        (manageLoop maxTokens l total acc).2 + estTokenSum acc := by
  intro l
  induction l with
  | nil => intro total acc; simp [manageLoop, Nat.add_comm]
  | cons m rest ih =>
    intro total acc
    by_cases hfit : total + estimateTokens m.content ≤ maxTokens
    · have h := ih (total + estimateTokens m.content) (m :: acc)
      simp only [manageLoop, hfit, if_pos]
      simp only [estTokenSum, List.map_cons, List.sum_cons] at h ⊢
      omega
    · simp [manageLoop, hfit, Nat.add_comm]

/-- C4: for every conversation history and every token budget, the sum of
the estimated token costs (`ceil(len(content)/4)`) of the messages the
Context Assembler keeps is at most the budget. -/
theorem c4_token_budget (messages : List ConversationMessage) (maxTokens : Nat) :
    ((manageConversationContext messages maxTokens).messages.map
      fun m => estimateTokens m.content).sum ≤ maxTokens := by
  have hle := manageLoop_total_le maxTokens messages.reverse 0 [] (Nat.zero_le _)
  have hsum := manageLoop_total_eq_sum maxTokens messages.reverse 0 []
  simp only [estTokenSum, List.map_nil, List.sum_nil, Nat.add_zero] at hsum
  show ((manageLoop maxTokens messages.reverse 0 []).1.map
    fun m => estimateTokens m.content).sum ≤ maxTokens
  omega

/-! ## C2 — the diversity invariant -/

/-- The pairwise diversity relation over accepted hits. -/
def DiverseAt (thr : ℚ) (a b : SearchHit) : Prop :=
  calculateStringSimilarity a.lowerTitle b.lowerTitle ≤ thr

/-- `DiverseAt` is symmetric. -/
theorem diverseAt_symm (thr : ℚ) : Symmetric (DiverseAt thr) := by
  intro a b h
  unfold DiverseAt at h ⊢
  rwa [calculateStringSimilarity_comm]

/-- Invariant of the greedy loop: if the accepted hits are pairwise
diverse and every accepted title is among the used titles, the final
accepted list is pairwise diverse. -/
theorem selectDiverseLoop_pairwise (targetCount : Nat) (thr : ℚ) :
    ∀ (l accepted : List SearchHit) (used : List String),
      accepted.Pairwise (DiverseAt thr) →
      (∀ a ∈ accepted, a.lowerTitle ∈ used) →
      (selectDiverseLoop targetCount thr accepted l used).Pairwise (DiverseAt thr) := by
  intro l
  induction l with
  | nil => intro accepted used hpw _; exact hpw
  | cons result rest ih =>
    intro accepted used hpw hcover
    by_cases hstop : targetCount ≤ accepted.length
    · simpa [selectDiverseLoop, hstop] using hpw
    · simp only [selectDiverseLoop, if_neg hstop]
      by_cases hsim : tooSimilar thr result.lowerTitle used
      · simpa [hsim] using ih accepted used hpw hcover
      · simp only [hsim, Bool.false_eq_true, if_false]
        apply ih
        · rw [List.pairwise_append]
          refine ⟨hpw, List.pairwise_singleton _ _, ?_⟩
          intro a ha b hb
          rw [List.mem_singleton] at hb
          subst hb
          have hnot : ∀ u ∈ used, ¬ thr < calculateStringSimilarity (SearchHit.lowerTitle b) u := by
            simpa [tooSimilar, List.any_eq_true] using hsim
          have := hnot a.lowerTitle (hcover a ha)
          exact diverseAt_symm thr (not_lt.mp this)
        · intro a ha
          rcases List.mem_append.mp ha with h | h
          · exact List.mem_cons_of_mem _ (hcover a h)
          · rw [List.mem_singleton] at h
            subst h
            exact List.mem_cons_self _ _

/-- C2: for every hit list, target count and diversity threshold, any two
distinct hits accepted into the Ranker's output have Jaccard similarity
of their lower-cased titles at most the threshold. -/
theorem c2_diversity_invariant (results : List SearchHit) (targetCount : Nat)
    (thr : ℚ) (a b : SearchHit)
    (ha : a ∈ selectDiverse results targetCount thr)
    (hb : b ∈ selectDiverse results targetCount thr) (hab : a ≠ b) :
    calculateStringSimilarity a.lowerTitle b.lowerTitle ≤ thr := by
  have hpw : (selectDiverse results targetCount thr).Pairwise (DiverseAt thr) :=
    selectDiverseLoop_pairwise targetCount thr _ [] []
      (List.Pairwise.nil) (by intro a ha; cases ha)
  exact hpw.forall (diverseAt_symm thr) ha hb hab

/-- C2 witness: with the scenario hits, threshold `0.8` and target `2`,
the two accepted hits' titles have similarity at most `0.8`. -/
theorem c2_diversity_invariant_witness :
    calculateStringSimilarity fedHit1.lowerTitle stockHit.lowerTitle ≤ mkRat 8 10 :=
  c2_diversity_invariant [fedHit1, stockHit] 2 (mkRat 8 10) fedHit1 stockHit
    (by decide) (by decide) (by decide)

/-! ## C8 — identical titles, amended -/

/-- C8 (amended): whenever `diversityThreshold < 1` — in particular at
the default `0.8` — two distinct accepted hits never share a normalized
title, because identical titles have Jaccard similarity `1.0`. -/
theorem c8_amended (results : List SearchHit) (targetCount : Nat) (thr : ℚ)
    (hthr : thr < 1) (a b : SearchHit)
    (ha : a ∈ selectDiverse results targetCount thr)
    (hb : b ∈ selectDiverse results targetCount thr) (hab : a ≠ b) :
    a.lowerTitle ≠ b.lowerTitle := by
  intro heq
  have hsim := c2_diversity_invariant results targetCount thr a b ha hb hab
  rw [heq, calculateStringSimilarity_self] at hsim
  exact absurd (lt_of_le_of_lt hsim hthr) (lt_irrefl 1)

/-- C8 witness: at threshold `0.8` the two accepted scenario hits have
distinct normalized titles. -/
theorem c8_amended_witness : fedHit1.lowerTitle ≠ stockHit.lowerTitle :=
  c8_amended [fedHit1, stockHit] 2 (mkRat 8 10) (by decide) fedHit1 stockHit
    (by decide) (by decide) (by decide)

/-! ## C9 — amended frame properties -/

/-- The greedy part of `manageLoop` only ever returns a reversed prefix
of the scanned list on top of its accumulator. -/
theorem manageLoop_prefix (maxTokens : Nat) :
    ∀ (l : List ConversationMessage) (total : Nat) (acc : List ConversationMessage),
      ∃ l', l' <+: l ∧ (manageLoop maxTokens l total acc).1 = l'.reverse ++ acc := by
  intro l
  induction l with
  | nil => intro total acc; exact ⟨[], List.nil_prefix, rfl⟩
  | cons m rest ih =>
    intro total acc
    by_cases hfit : total + estimateTokens m.content ≤ maxTokens
    · obtain ⟨l', hpre, heq⟩ := ih (total + estimateTokens m.content) (m :: acc)
      refine ⟨m :: l', List.cons_prefix_cons.mpr ⟨rfl, hpre⟩, ?_⟩
      simp only [manageLoop, hfit, if_pos, heq, List.reverse_cons, List.append_assoc,
        List.singleton_append]
    · exact ⟨[], List.nil_prefix, by simp [manageLoop, hfit]⟩

/-! ## C7 — machinery: structure of `replaceWord2` outputs -/

/-- A nonempty input yields a nonempty output (for a nonempty
replacement). -/
theorem replaceWord2_ne_nil (x y : Char) (r : List Char) (hr : r ≠ [])
    (b : Bool) (l : List Char) (hl : l ≠ []) : replaceWord2 x y r b l ≠ [] := by
  match l with
  | [] => exact absurd rfl hl
  | [c] => simp [replaceWord2]
  | c :: d :: rest =>
    rw [replaceWord2]
    split
    · simp [hr]
    · simp

/-- Scanning from a non-boundary state cannot match at the first
position, so the output starts with the input's first character. -/
theorem head?_replaceWord2_false (x y : Char) (r : List Char) (l : List Char) :
    (replaceWord2 x y r false l).head? = l.head? := by
  match l with
  | [] => rfl
  | [c] => rfl
  | c :: d :: rest => simp [replaceWord2]

/-- The output's first character is the input's or the replacement's. -/
theorem head?_replaceWord2_mem (x y : Char) (r : List Char) (hr : r ≠ [])
    (b : Bool) (l : List Char) :
    (replaceWord2 x y r b l).head? = l.head? ∨
      (replaceWord2 x y r b l).head? = r.head? := by
  match l with
  | [] => exact Or.inl rfl
  | [c] => exact Or.inl rfl
  | c :: d :: rest =>
    rw [replaceWord2]
    split
    · match r with
      | [] => exact absurd rfl hr
      | e :: r' => exact Or.inr rfl
    · exact Or.inl rfl

/-- The output's last character is the input's or the replacement's. -/
theorem getLast?_replaceWord2_mem (x y : Char) (r : List Char) (hr : r ≠ []) :
    ∀ (b : Bool) (l : List Char),
      (replaceWord2 x y r b l).getLast? = l.getLast? ∨
        (replaceWord2 x y r b l).getLast? = r.getLast? := by
  intro b l
  induction b, l using replaceWord2.induct x y r with
  | case1 b => exact Or.inl rfl
  | case2 b c => exact Or.inl rfl
  | case3 b c d rest hcond ih =>
    rw [replaceWord2, if_pos hcond]
    match hrest : rest with
    | [] =>
      simp only [replaceWord2, List.append_nil]
      exact Or.inr trivial
    | f :: rest' =>
      have hne : replaceWord2 x y r false (f :: rest') ≠ [] :=
        replaceWord2_ne_nil x y r hr false _ (by simp)
      rw [List.getLast?_append_of_ne_nil _ hne]
      rcases ih with h | h
      · rw [h]
        left
        exact (List.getLast?_cons_cons ..).symm.trans (List.getLast?_cons_cons ..).symm
      · exact Or.inr h
  | case4 b c d rest hcond ih =>
    rw [replaceWord2, if_neg hcond]
    have hne : replaceWord2 x y r (!wordChar c) (d :: rest) ≠ [] :=
      replaceWord2_ne_nil x y r hr _ _ (by simp)
    have hcons : (c :: replaceWord2 x y r (!wordChar c) (d :: rest)).getLast? =
        (replaceWord2 x y r (!wordChar c) (d :: rest)).getLast? := by
      match hout : replaceWord2 x y r (!wordChar c) (d :: rest) with
      | [] => exact absurd hout hne
      | e :: t => exact List.getLast?_cons_cons ..
    rw [hcons]
    rcases ih with h | h
    · rw [h]
      left
      exact (List.getLast?_cons_cons ..).symm
    · exact Or.inr h

/-- Every output character comes from the input or the replacement. -/
theorem mem_replaceWord2 (x y : Char) (r : List Char) :
    ∀ (b : Bool) (l : List Char) (c : Char),
      c ∈ replaceWord2 x y r b l → c ∈ l ∨ c ∈ r := by
  intro b l
  induction b, l using replaceWord2.induct x y r with
  | case1 b => intro c h; cases h
  | case2 b c => intro e h; exact Or.inl h
  | case3 b c d rest hcond ih =>
    intro e h
    rw [replaceWord2, if_pos hcond] at h
    rcases List.mem_append.mp h with h | h
    · exact Or.inr h
    · rcases ih e h with h | h
      · exact Or.inl (by simp [h])
      · exact Or.inr h
  | case4 b c d rest hcond ih =>
    intro e h
    rw [replaceWord2, if_neg hcond] at h
    rcases List.mem_cons.mp h with h | h
    · exact Or.inl (by simp [h])
    · rcases ih e h with h | h
      · exact Or.inl (by rcases List.mem_cons.mp h with h | h <;> simp [h])
      · exact Or.inr h

/-! ## C7 — machinery: whitespace shape of cleaned strings -/

/-- A pair whose left character is not whitespace is acceptable. -/
theorem pairOk_of_left (c : Char) (hc : isWs c = false) (o : Option Char) :
    pairOk (some c) o = true := by
  cases o <;> simp [pairOk, hc]

/-- A pair whose right character is not whitespace is acceptable. -/
theorem pairOk_of_right (c : Char) (hc : isWs c = false) (o : Option Char) :
    pairOk o (some c) = true := by
  cases o <;> simp [pairOk, hc]

/-- `noWsPair` on a cons, phrased through `head?`. -/
theorem noWsPair_cons (c : Char) (l : List Char) :
    noWsPair (c :: l) = (pairOk (some c) l.head? && noWsPair l) := by
  cases l with
  | nil => rfl
  | cons d t => rfl

/-- Appending preserves `noWsPair` when the junction pair is
acceptable. -/
theorem noWsPair_append : ∀ (xs ys : List Char), noWsPair xs = true →
    noWsPair ys = true → pairOk xs.getLast? ys.head? = true →
      noWsPair (xs ++ ys) = true := by
  intro xs
  induction xs with
  | nil => intro ys _ hy _; exact hy
  | cons c xs' ih =>
    intro ys hx hy hb
    rw [List.cons_append, noWsPair_cons, Bool.and_eq_true]
    match xs' with
    | [] => exact ⟨hb, hy⟩
    | d :: t =>
      rw [noWsPair_cons, Bool.and_eq_true] at hx
      refine ⟨by simpa using hx.1, ?_⟩
      exact ih ys hx.2 hy (by rw [List.getLast?_cons_cons] at hb; exact hb)

/-- `replaceWord2` preserves the no-adjacent-whitespace property when the
replacement itself is whitespace-shaped with non-whitespace ends. -/
theorem noWsPair_replaceWord2 (x y : Char) (r : List Char) (hr : r ≠ [])
    (hrn : noWsPair r = true) (hrh : r.head?.all (fun c => !isWs c) = true)
    (hrl : r.getLast?.all (fun c => !isWs c) = true) :
    ∀ (b : Bool) (l : List Char), noWsPair l = true →
      noWsPair (replaceWord2 x y r b l) = true := by
  intro b l
  induction b, l using replaceWord2.induct x y r with
  | case1 b => intro _; rfl
  | case2 b c => intro _; rfl
  | case3 b c d rest hcond ih =>
    intro hl
    rw [replaceWord2, if_pos hcond]
    have hrest : noWsPair rest = true := by
      have h1 : noWsPair (d :: rest) = true := by
        rw [noWsPair_cons, Bool.and_eq_true] at hl
        exact hl.2
      rw [noWsPair_cons, Bool.and_eq_true] at h1
      exact h1.2
    refine noWsPair_append r _ hrn (ih hrest) ?_
    match hg : r.getLast? with
    | none =>
      match r with
      | [] => exact absurd rfl hr
      | e :: r' => simp at hg
    | some g =>
      rw [hg] at hrl
      exact pairOk_of_left g (by simpa using hrl) _
  | case4 b c d rest hcond ih =>
    intro hl
    rw [replaceWord2, if_neg hcond]
    rw [noWsPair_cons] at hl ⊢
    rw [Bool.and_eq_true] at hl
    rw [Bool.and_eq_true]
    refine ⟨?_, ih hl.2⟩
    rcases head?_replaceWord2_mem x y r hr (!wordChar c) (d :: rest) with h | h
    · rw [h]
      exact hl.1
    · rw [h]
      match hh : r.head? with
      | none =>
        match r with
        | [] => exact absurd rfl hr
        | e :: r' => simp at hh
      | some e =>
        rw [hh] at hrh
        exact pairOk_of_right e (by simpa using hrh) _

/-- `replaceWord2` preserves "every whitespace character is a space" when
the replacement satisfies it. -/
theorem wsIsSpace_replaceWord2 (x y : Char) (r : List Char)
    (hr : wsIsSpace r = true) (b : Bool) (l : List Char)
    (hl : wsIsSpace l = true) : wsIsSpace (replaceWord2 x y r b l) = true := by
  rw [wsIsSpace, List.all_eq_true]
  intro c hc
  rcases mem_replaceWord2 x y r b l c hc with h | h
  · rw [wsIsSpace, List.all_eq_true] at hl
    exact hl c h
  · rw [wsIsSpace, List.all_eq_true] at hr
    exact hr c h

/-- Collapsing whitespace never lengthens a list. -/
theorem collapseWs_length_le : ∀ l : List Char, (collapseWs l).length ≤ l.length := by
  intro l
  induction l using collapseWs.induct with
  | case1 => exact Nat.le_refl _
  | case2 c => simp [collapseWs]
  | case3 c d rest hcond ih =>
    rw [collapseWs, if_pos hcond]
    exact Nat.le_trans ih (by simp)
  | case4 c d rest hcond ih =>
    rw [collapseWs, if_neg hcond]
    simpa using ih

/-- A list is a fixed point of whitespace collapsing exactly when all its
whitespace is plain spaces and no two are adjacent. -/
theorem collapseWs_eq_self_iff : ∀ l : List Char,
    collapseWs l = l ↔ (wsIsSpace l && noWsPair l) = true := by
  intro l
  induction l using collapseWs.induct with
  | case1 => simp [collapseWs, wsIsSpace, noWsPair]
  | case2 c =>
    by_cases hc : isWs c = true
    · constructor
      · intro h
        rw [collapseWs] at h
        rw [if_pos hc] at h
        have : (' ' : Char) = c := by simpa using h
        simp [wsIsSpace, noWsPair, hc, ← this]
      · intro h
        simp only [wsIsSpace, noWsPair, List.all_cons, List.all_nil, Bool.and_true, hc,
          Bool.not_true, Bool.false_or] at h
        rw [collapseWs, if_pos hc]
        have : c = ' ' := by simpa using h
        rw [this]
    · rw [collapseWs, if_neg hc]
      simp [wsIsSpace, noWsPair, hc]
  | case3 c d rest hcond ih =>
    rw [collapseWs, if_pos hcond]
    constructor
    · intro h
      have hlen := collapseWs_length_le (d :: rest)
      rw [h] at hlen
      simp at hlen
    · intro h
      rw [Bool.and_eq_true] at h
      have h2 := h.2
      rw [noWsPair] at h2
      rw [Bool.and_eq_true] at h2
      rw [hcond] at h2
      simp at h2
  | case4 c d rest hcond ih =>
    rw [collapseWs, if_neg hcond]
    have hws1 : wsIsSpace (c :: d :: rest) =
        ((!isWs c || decide (c = ' ')) && wsIsSpace (d :: rest)) := rfl
    have hnp1 : noWsPair (c :: d :: rest) =
        (!(isWs c && isWs d) && noWsPair (d :: rest)) := rfl
    have hcf : (isWs c && isWs d) = false := by
      cases hcc : (isWs c && isWs d) with
      | false => rfl
      | true => exact absurd hcc hcond
    constructor
    · intro h
      rw [List.cons_eq_cons] at h
      obtain ⟨h1, h2⟩ := h
      have hih := ih.mp h2
      rw [Bool.and_eq_true] at hih
      rw [hws1, hnp1]
      simp only [Bool.and_eq_true]
      refine ⟨⟨?_, hih.1⟩, by rw [hcf]; rfl, hih.2⟩
      by_cases hws : isWs c = true
      · rw [if_pos hws] at h1
        simp [hws, ← h1]
      · simp [hws]
    · intro h
      rw [hws1, hnp1] at h
      simp only [Bool.and_eq_true] at h
      obtain ⟨⟨hcs, hrest⟩, _, hnw⟩ := h
      have hih := ih.mpr (by rw [Bool.and_eq_true]; exact ⟨hrest, hnw⟩)
      rw [List.cons_eq_cons]
      refine ⟨?_, hih⟩
      by_cases hws : isWs c = true
      · rw [if_pos hws]
        rcases (Bool.or_eq_true ..).mp hcs with h | h
        · rw [hws] at h; simp at h
        · exact (by simpa using h : c = ' ').symm
      · rw [if_neg hws]

/-- `dropWhile isWs` is the identity exactly when the head is not
whitespace. -/
theorem dropWhile_isWs_eq_self_iff (l : List Char) :
    List.dropWhile isWs l = l ↔ headNotWs l = true := by
  cases l with
  | nil => simp [headNotWs]
  | cons c t =>
    by_cases hc : isWs c = true
    · rw [List.dropWhile_cons_of_pos hc]
      constructor
      · intro h
        have := (List.dropWhile_suffix (l := t) isWs).length_le
        rw [h] at this
        simp at this
      · intro h
        simp [headNotWs, hc] at h
    · rw [List.dropWhile_cons_of_neg (by simp [hc])]
      simp [headNotWs, hc]

/-- `trim` is the identity exactly when neither end is whitespace. -/
theorem jsTrimList_eq_self_iff (l : List Char) :
    jsTrimList l = l ↔ (headNotWs l && headNotWs l.reverse) = true := by
  constructor
  · intro h
    rw [jsTrimList] at h
    set A := List.dropWhile isWs l with hA
    set B := List.dropWhile isWs A.reverse with hB
    have hAsuf : A <:+ l := List.dropWhile_suffix isWs
    have hBsuf : B <:+ A.reverse := List.dropWhile_suffix isWs
    have hlen : B.reverse.length = l.length := by rw [h]
    have hBlen : B.length ≤ A.length := by
      simpa using hBsuf.length_le
    have hAlen : A.length ≤ l.length := hAsuf.length_le
    have hAeq : A = l := hAsuf.eq_of_length (by simp at hlen; omega)
    have hBeq : B = A.reverse := hBsuf.eq_of_length (by simp at hlen ⊢; omega)
    rw [Bool.and_eq_true]
    constructor
    · exact (dropWhile_isWs_eq_self_iff l).mp hAeq
    · rw [← hAeq]
      exact (dropWhile_isWs_eq_self_iff A.reverse).mp hBeq
  · intro h
    rw [Bool.and_eq_true] at h
    rw [jsTrimList, (dropWhile_isWs_eq_self_iff l).mpr h.1,
      (dropWhile_isWs_eq_self_iff l.reverse).mpr h.2, List.reverse_reverse]

/-! ## C7 — machinery: boundary-scan lemmas

The global regex replaces `\bai\b` / `\bml\b` are `replaceWord2` scans;
`hasM` is the matching scan.  The lemmas below show a string without a
match is left unchanged, and that the replace's own output never
contains a match of either pattern again (the replacement texts contain
no standalone occurrence of the patterns and both start and end in word
characters, so no new boundary-delimited occurrence can arise). -/

/-- A scan step over a character that cannot start a match (it differs
from the pattern's first character). -/
theorem hasM_cons_ne (x y c : Char) (h : (c = x) = False) (b : Bool) (t : List Char) :
    hasM x y b (c :: t) = hasM x y (!wordChar c) t := by
  cases t with
  | nil => rfl
  | cons d t' => simp [hasM, h]

/-- A scan step from a non-boundary state never matches at the head. -/
theorem hasM_cons_state_false (x y c : Char) (t : List Char) :
    hasM x y false (c :: t) = hasM x y (!wordChar c) t := by
  cases t with
  | nil => rfl
  | cons d t' => simp [hasM]

/-- A pair whose second character differs from the pattern's second
cannot be a match. -/
theorem hasM_cons_cons_ne (x y c d : Char) (h : (d = y) = False) (b : Bool) (t : List Char) :
    hasM x y b (c :: d :: t) = hasM x y (!wordChar c) (d :: t) := by
  simp [hasM, h]

/-- `headNonWord` through `head?`. -/
theorem headNonWord_of_head? (l : List Char) (c : Char) (h : l.head? = some c) :
    headNonWord l = !wordChar c := by
  cases l with
  | nil => cases h
  | cons d t =>
    have hd : d = c := by simpa using h
    rw [headNonWord, hd]

/-- A match-free string is left unchanged by the replace scan. -/
theorem replaceWord2_eq_self_of_not_hasM (x y : Char) (r : List Char) :
    ∀ (b : Bool) (l : List Char), hasM x y b l = false → replaceWord2 x y r b l = l := by
  intro b l
  induction b, l using replaceWord2.induct x y r with
  | case1 b => intro _; rfl
  | case2 b c => intro _; rfl
  | case3 b c d rest hcond ih =>
    intro h
    rw [hasM, hcond] at h
    simp at h
  | case4 b c d rest hcond ih =>
    intro h
    rw [hasM] at h
    rw [Bool.or_eq_false_iff] at h
    rw [replaceWord2, if_neg hcond, ih h.2]

/-- The output of the replace scan contains no match of its own pattern:
replaced occurrences become the (match-free, word-delimited) replacement
text, and a failed match cannot become a match because the replacement
never disturbs the characters around kept positions. -/
theorem hasM_replaceWord2_self (x y : Char) (hx : wordChar x = true) (hy : wordChar y = true)
    (r : List Char)
    (hC1 : ∀ (b : Bool) (t : List Char), hasM x y b (r ++ t) = hasM x y false t) :
    ∀ (b : Bool) (l : List Char), hasM x y b (replaceWord2 x y r b l) = false := by
  intro b l
  induction b, l using replaceWord2.induct x y r with
  | case1 b => rfl
  | case2 b c => rfl
  | case3 b c d rest hcond ih =>
    rw [replaceWord2, if_pos hcond, hC1]
    exact ih
  | case4 b c d rest hcond ih =>
    rw [replaceWord2, if_neg hcond]
    by_cases hcx : c = x
    · have hst : (!wordChar c) = false := by rw [hcx, hx]; rfl
      cases hb : b with
      | false =>
        rw [hasM_cons_state_false]
        exact ih
      | true =>
        rw [hb] at hcond
        rw [hst] at ih ⊢
        cases rest with
        | nil =>
          have hout : replaceWord2 x y r false [d] = [d] := rfl
          rw [hout, hasM]
          have hfirst : (true && decide (c = x) && decide (d = y) && headNonWord []) = false := by
            cases hcc : (true && decide (c = x) && decide (d = y) && headNonWord []) with
            | false => rfl
            | true => exact absurd hcc hcond
          rw [hfirst]
          rfl
        | cons f rest' =>
          have hout : replaceWord2 x y r false (d :: f :: rest') =
              d :: replaceWord2 x y r (!wordChar d) (f :: rest') := by
            rw [replaceWord2]
            simp
          rw [hout] at ih ⊢
          rw [hasM, hst]
          rw [hasM_cons_state_false] at ih
          have hsecond : hasM x y false (d :: replaceWord2 x y r (!wordChar d)
              (f :: rest')) = false := by
            rw [hasM_cons_state_false]
            exact ih
          rw [hsecond, Bool.or_false]
          by_cases hdy : d = y
          · have hnw : headNonWord (f :: rest') = false := by
              cases hcc : headNonWord (f :: rest') with
              | false => rfl
              | true =>
                rw [hcc] at hcond
                simp [hcx, hdy] at hcond
            have hf : wordChar f = true := by
              rw [headNonWord] at hnw
              simpa using hnw
            have hdst : (!wordChar d) = false := by rw [hdy, hy]; rfl
            have hhead : (replaceWord2 x y r (!wordChar d) (f :: rest')).head? = some f := by
              rw [hdst]
              exact head?_replaceWord2_false x y r _
            rw [headNonWord_of_head? _ f hhead, hf]
            simp
          · simp [hdy]
    · rw [hasM_cons_ne x y c (eq_false hcx)]
      exact ih

/-- Replacing one (word-delimited, word-character) pattern cannot
introduce a match of another word-character pattern whose scan previously
found none. -/
theorem hasM_replaceWord2_other (x y x' y' : Char)
    (hx : wordChar x = true) (hy : wordChar y = true)
    (hx' : wordChar x' = true) (hy' : wordChar y' = true)
    (r : List Char)
    (hC1 : ∀ (b : Bool) (t : List Char), hasM x y b (r ++ t) = hasM x y false t) :
    ∀ (b : Bool) (l : List Char), hasM x y b l = false →
      hasM x y b (replaceWord2 x' y' r b l) = false := by
  intro b l
  induction b, l using replaceWord2.induct x' y' r with
  | case1 b => intro _; rfl
  | case2 b c => intro h; exact h
  | case3 b c d rest hcond ih =>
    intro hl
    rw [replaceWord2, if_pos hcond, hC1]
    apply ih
    have hcx' : c = x' := by
      have := hcond
      simp only [Bool.and_eq_true, decide_eq_true_eq] at this
      exact this.1.1.2
    have hdy' : d = y' := by
      have := hcond
      simp only [Bool.and_eq_true, decide_eq_true_eq] at this
      exact this.1.2
    rw [hasM, Bool.or_eq_false_iff] at hl
    have h2 := hl.2
    rw [hcx', hx'] at h2
    rw [show (!true) = false from rfl] at h2
    cases rest with
    | nil => rfl
    | cons f rest' =>
      rw [hasM_cons_state_false, hdy', hy'] at h2
      rwa [show (!true) = false from rfl] at h2
  | case4 b c d rest hcond ih =>
    intro hl
    rw [replaceWord2, if_neg hcond]
    rw [hasM, Bool.or_eq_false_iff] at hl
    have hrec := ih hl.2
    cases hb : b with
    | false =>
      rw [hasM_cons_state_false]
      exact hrec
    | true =>
      by_cases hcx : c = x
      · have hst : (!wordChar c) = false := by rw [hcx, hx]; rfl
        rw [hst] at hrec
        have hfirst := hl.1
        rw [hb] at hfirst
        rw [hst]
        cases rest with
        | nil =>
          have hout : replaceWord2 x' y' r false [d] = [d] := rfl
          rw [hout, hasM, hfirst]
          rfl
        | cons f rest' =>
          have hout : replaceWord2 x' y' r false (d :: f :: rest') =
              d :: replaceWord2 x' y' r (!wordChar d) (f :: rest') := by
            rw [replaceWord2]
            simp
          rw [hout] at hrec ⊢
          rw [hasM, hst]
          rw [hrec, Bool.or_false]
          by_cases hdy : d = y
          · have hnw : headNonWord (f :: rest') = false := by
              cases hcc : headNonWord (f :: rest') with
              | false => rfl
              | true =>
                rw [hcc] at hfirst
                simp [hcx, hdy] at hfirst
            have hf : wordChar f = true := by
              rw [headNonWord] at hnw
              simpa using hnw
            have hdst : (!wordChar d) = false := by rw [hdy, hy]; rfl
            have hhead : (replaceWord2 x' y' r (!wordChar d) (f :: rest')).head? = some f := by
              rw [hdst]
              exact head?_replaceWord2_false x' y' r _
            rw [headNonWord_of_head? _ f hhead, hf]
            simp
          · simp [hdy]
      · rw [hasM_cons_ne x y c (eq_false hcx)]
        exact hrec

/-! ## C7 — machinery: the two concrete replacements -/

/-- Scanning for `\bai\b` passes through `"artificial intelligence"`
without matching and leaves the scan at a non-boundary state (the text
ends in a word character). -/
theorem hasM_ai_aiRepl (b : Bool) (t : List Char) :
    hasM 'a' 'i' b ("artificial intelligence".data ++ t) = hasM 'a' 'i' false t := by
  show hasM 'a' 'i' b ('a' :: 'r' :: 't' :: 'i' :: 'f' :: 'i' :: 'c' :: 'i' :: 'a' :: 'l' ::
    ' ' :: 'i' :: 'n' :: 't' :: 'e' :: 'l' :: 'l' :: 'i' :: 'g' :: 'e' :: 'n' :: 'c' ::
    'e' :: t) = hasM 'a' 'i' false t
  simp +decide only [hasM, headNonWord, wordChar]
  simp only [decide_True, decide_False, Bool.false_and, Bool.and_false, Bool.false_or,
    Bool.not_true, Bool.not_false, Bool.true_and, Bool.and_true, Bool.or_false]
  rw [hasM_cons_ne 'a' 'i' 'e' (by simp)]
  have h : (!wordChar 'e') = false := by decide
  rw [h]

/-- Scanning for `\bai\b` passes through `"machine learning"` without
matching. -/
theorem hasM_ai_mlRepl (b : Bool) (t : List Char) :
    hasM 'a' 'i' b ("machine learning".data ++ t) = hasM 'a' 'i' false t := by
  show hasM 'a' 'i' b ('m' :: 'a' :: 'c' :: 'h' :: 'i' :: 'n' :: 'e' :: ' ' :: 'l' :: 'e' ::
    'a' :: 'r' :: 'n' :: 'i' :: 'n' :: 'g' :: t) = hasM 'a' 'i' false t
  simp +decide only [hasM, headNonWord, wordChar]
  simp only [decide_True, decide_False, Bool.false_and, Bool.and_false, Bool.false_or,
    Bool.not_true, Bool.not_false, Bool.true_and, Bool.and_true, Bool.or_false]
  rw [hasM_cons_ne 'a' 'i' 'g' (by simp)]
  have h : (!wordChar 'g') = false := by decide
  rw [h]

/-- Scanning for `\bml\b` passes through `"machine learning"` without
matching. -/
theorem hasM_ml_mlRepl (b : Bool) (t : List Char) :
    hasM 'm' 'l' b ("machine learning".data ++ t) = hasM 'm' 'l' false t := by
  show hasM 'm' 'l' b ('m' :: 'a' :: 'c' :: 'h' :: 'i' :: 'n' :: 'e' :: ' ' :: 'l' :: 'e' ::
    'a' :: 'r' :: 'n' :: 'i' :: 'n' :: 'g' :: t) = hasM 'm' 'l' false t
  simp +decide only [hasM, headNonWord, wordChar]
  simp only [decide_True, decide_False, Bool.false_and, Bool.and_false, Bool.false_or,
    Bool.not_true, Bool.not_false, Bool.true_and, Bool.and_true, Bool.or_false]
  rw [hasM_cons_ne 'm' 'l' 'g' (by simp)]
  have h : (!wordChar 'g') = false := by decide
  rw [h]

/-- `replaceAi` output contains no further `\bai\b` match. -/
theorem replaceAi_no_ai (l : List Char) : hasM 'a' 'i' true (replaceAi l) = false :=
  hasM_replaceWord2_self 'a' 'i' (by decide) (by decide) _ hasM_ai_aiRepl true l

/-- `replaceMl` output contains no further `\bml\b` match. -/
theorem replaceMl_no_ml (l : List Char) : hasM 'm' 'l' true (replaceMl l) = false :=
  hasM_replaceWord2_self 'm' 'l' (by decide) (by decide) _ hasM_ml_mlRepl true l

/-- `replaceMl` cannot introduce a `\bai\b` match where none existed. -/
theorem replaceMl_keeps_no_ai (l : List Char) (h : hasM 'a' 'i' true l = false) :
    hasM 'a' 'i' true (replaceMl l) = false :=
  hasM_replaceWord2_other 'a' 'i' 'm' 'l' (by decide) (by decide) (by decide) (by decide)
    _ hasM_ai_mlRepl true l h

/-- The composite expansion is a fixed point of `replaceAi`. -/
theorem replaceAi_cleanOut (l : List Char) :
    replaceAi (replaceMl (replaceAi l)) = replaceMl (replaceAi l) :=
  replaceWord2_eq_self_of_not_hasM 'a' 'i' _ true _
    (replaceMl_keeps_no_ai _ (replaceAi_no_ai l))

/-- The composite expansion is a fixed point of `replaceMl`. -/
theorem replaceMl_cleanOut (l : List Char) :
    replaceMl (replaceMl (replaceAi l)) = replaceMl (replaceAi l) :=
  replaceWord2_eq_self_of_not_hasM 'm' 'l' _ true _ (replaceMl_no_ml (replaceAi l))

/-! ## C7 — machinery: tokens are substrings of the split string -/

/-- A pointwise-identical map is the identity. -/
theorem map_eq_self_of_forall {α : Type} (f : α → α) :
    ∀ l : List α, (∀ c ∈ l, f c = c) → l.map f = l := by
  intro l h
  conv_rhs => rw [← List.map_id l]
  exact List.map_congr_left h

/-- The converse: an identity map is pointwise identical. -/
theorem forall_of_map_eq_self {α : Type} (f : α → α) :
    ∀ l : List α, l.map f = l → ∀ c ∈ l, f c = c := by
  intro l
  induction l with
  | nil => intro _ c h; cases h
  | cons a t ih =>
    intro h c hc
    rw [List.map_cons, List.cons_eq_cons] at h
    rcases List.mem_cons.mp hc with rfl | hc
    · exact h.1
    · exact ih h.2 c hc

/-- Every field produced by `splitCh` is an infix of the scanned text
(prefixed by the accumulated current token). -/
theorem splitCh_isSub : ∀ (l cur : List Char) (t : String),
    t ∈ splitCh l cur → t.data <:+: (cur.reverse ++ l) := by
  intro l
  induction l with
  | nil =>
    intro cur t ht
    rw [splitCh, List.mem_singleton] at ht
    rw [ht, List.append_nil]
  | cons c rest ih =>
    intro cur t ht
    rw [splitCh] at ht
    by_cases hc : c = ' '
    · rw [if_pos hc] at ht
      rcases List.mem_cons.mp ht with rfl | ht
      · exact (List.prefix_append _ _).isInfix
      · have h := ih [] t ht
        rw [List.reverse_nil, List.nil_append] at h
        refine h.trans ?_
        have : cur.reverse ++ c :: rest = (cur.reverse ++ [c]) ++ rest := by
          rw [List.append_cons]
        rw [this]
        exact (List.suffix_append _ _).isInfix
    · rw [if_neg hc] at ht
      have h := ih (c :: cur) t ht
      rw [List.reverse_cons] at h
      rwa [List.append_cons]

/-- Fields produced by `splitCh` contain no separator. -/
theorem splitCh_no_space : ∀ (l cur : List Char) (t : String),
    t ∈ splitCh l cur → (∀ c ∈ cur, ¬(c = ' ')) → ∀ c ∈ t.data, ¬(c = ' ') := by
  intro l
  induction l with
  | nil =>
    intro cur t ht hcur c hcmem
    rw [splitCh, List.mem_singleton] at ht
    rw [ht] at hcmem
    exact hcur c (List.mem_reverse.mp hcmem)
  | cons a rest ih =>
    intro cur t ht hcur c hcmem
    rw [splitCh] at ht
    by_cases ha : a = ' '
    · rw [if_pos ha] at ht
      rcases List.mem_cons.mp ht with rfl | ht
      · exact hcur c (List.mem_reverse.mp hcmem)
      · exact ih [] t ht (by intro c h; cases h) c hcmem
    · rw [if_neg ha] at ht
      refine ih (a :: cur) t ht ?_ c hcmem
      intro e he
      rcases List.mem_cons.mp he with rfl | he
      · exact ha
      · exact hcur e he

/-- Collapsing a whitespace-headed list yields a space-headed list. -/
theorem collapseWs_head_space : ∀ (rest : List Char) (f : Char), isWs f = true →
    ∃ tl, collapseWs (f :: rest) = ' ' :: tl := by
  intro rest
  induction rest with
  | nil =>
    intro f hf
    exact ⟨[], by rw [collapseWs, if_pos hf]⟩
  | cons d rest' ih =>
    intro f hf
    by_cases hd : isWs d = true
    · rw [collapseWs, if_pos (by rw [hf, hd]; rfl)]
      exact ih d hd
    · rw [collapseWs, if_neg (by rw [hf]; simpa using hd), if_pos hf]
      exact ⟨collapseWs (d :: rest'), rfl⟩

/-- A space-free prefix of a collapsed list is a prefix of the
original. -/
theorem prefix_of_prefix_collapseWs : ∀ (m t : List Char),
    t <+: collapseWs m → (∀ c ∈ t, ¬(c = ' ')) → t <+: m := by
  intro m
  induction m using collapseWs.induct with
  | case1 =>
    intro t ht _
    rw [collapseWs] at ht
    rw [List.prefix_nil.mp ht]
  | case2 c =>
    intro t ht hsp
    rw [collapseWs] at ht
    match t, ht with
    | [], _ => exact List.nil_prefix
    | [e], ht =>
      have he : e = if isWs c = true then ' ' else c := by
        obtain ⟨s, hs⟩ := ht
        rw [List.cons_append, List.cons_eq_cons] at hs
        exact hs.1
      by_cases hc : isWs c = true
      · rw [if_pos hc] at he
        exact absurd he (hsp e (by simp))
      · rw [if_neg hc] at he
        rw [he]
    | e :: f :: t', ht =>
      rcases ht with ⟨s, hs⟩
      cases hs
  | case3 c d rest hcond ih =>
    intro t ht hsp
    rw [collapseWs, if_pos hcond] at ht
    have hd : isWs d = true := by
      rcases Bool.and_eq_true .. |>.mp hcond with ⟨_, h⟩
      exact h
    obtain ⟨tl, htl⟩ := collapseWs_head_space rest d hd
    rw [htl] at ht
    match t, ht with
    | [], _ => exact List.nil_prefix
    | e :: t', ht =>
      rcases ht with ⟨s, hs⟩
      injection hs with h1 _
      exact absurd h1 (hsp e (by simp))
  | case4 c d rest hcond ih =>
    intro t ht hsp
    rw [collapseWs, if_neg hcond] at ht
    match t, ht with
    | [], _ => exact List.nil_prefix
    | e :: t', ht =>
      rw [List.cons_prefix_cons] at ht
      have he : e = c := by
        have h1 := ht.1
        by_cases hc : isWs c = true
        · rw [if_pos hc] at h1
          exact absurd h1 (hsp e (by simp))
        · rw [if_neg hc] at h1
          exact h1
      rw [he, List.cons_prefix_cons]
      exact ⟨rfl, ih t' ht.2 (fun c h => hsp c (List.mem_cons_of_mem _ h))⟩

/-- A space-free infix of a collapsed list is an infix of the
original. -/
theorem infix_of_infix_collapseWs : ∀ (m t : List Char),
    t <:+: collapseWs m → (∀ c ∈ t, ¬(c = ' ')) → t <:+: m := by
  intro m
  induction m using collapseWs.induct with
  | case1 =>
    intro t ht _
    rw [collapseWs] at ht
    rw [List.infix_nil.mp ht]
  | case2 c =>
    intro t ht hsp
    rw [collapseWs] at ht
    rcases List.infix_cons_iff.mp ht with hpre | hsuf
    · have := prefix_of_prefix_collapseWs [c] t (by rw [collapseWs]; exact hpre) hsp
      exact this.isInfix
    · rw [List.infix_nil.mp hsuf]
      exact ⟨[], [c], rfl⟩
  | case3 c d rest hcond ih =>
    intro t ht hsp
    rw [collapseWs, if_pos hcond] at ht
    exact List.infix_cons (ih t ht hsp)
  | case4 c d rest hcond ih =>
    intro t ht hsp
    rw [collapseWs, if_neg hcond] at ht
    rcases List.infix_cons_iff.mp ht with hpre | hsuf
    · have : t <+: c :: d :: rest := by
        match t, hpre with
        | [], _ => exact List.nil_prefix
        | e :: t', hpre =>
          rw [List.cons_prefix_cons] at hpre
          have he : e = c := by
            have h1 := hpre.1
            by_cases hc : isWs c = true
            · rw [if_pos hc] at h1
              exact absurd h1 (hsp e (by simp))
            · rw [if_neg hc] at h1
              exact h1
          rw [he, List.cons_prefix_cons]
          exact ⟨rfl, prefix_of_prefix_collapseWs _ t' hpre.2
            (fun c h => hsp c (List.mem_cons_of_mem _ h))⟩
      exact this.isInfix
    · exact List.infix_cons (ih t hsuf hsp)

/-- Every whitespace-split token of a string is a substring of it. -/
theorem jsSplitWs_isSub (s : String) (t : String) (ht : t ∈ jsSplitWs s) :
    t.data <:+: s.data := by
  rw [jsSplitWs] at ht
  have h1 := splitCh_isSub (collapseWs s.data) [] t ht
  rw [List.reverse_nil, List.nil_append] at h1
  exact infix_of_infix_collapseWs s.data t.data h1
    (splitCh_no_space (collapseWs s.data) [] t ht (by intro c h; cases h))

/-- Every key term extracted from a string is found by `includes` on that
same string — the query-enhancement branch of `preprocessQuery` never
fires. -/
theorem extractKeyTerms_included (s : String) (term : String)
    (h : term ∈ extractKeyTerms s) : jsIncludes s term = true := by
  rw [extractKeyTerms] at h
  have h1 : term ∈ jsSplitWs s := List.mem_of_mem_filter (List.mem_of_mem_take h)
  exact decide_eq_true (jsSplitWs_isSub s term h1)

/-- `preprocessQuery` coincides with its cleaning chain: the key terms
are words of the cleaned query, hence always substrings of it, so the
enhancement filter is always empty. -/
theorem preprocessQuery_eq_cleanQuery (q : String) :
    preprocessQuery q = cleanQuery q := by
  rw [preprocessQuery]
  have hemp : ((extractKeyTerms (cleanQuery q)).filter
      fun term => !jsIncludes (cleanQuery q) term) = [] := by
    rw [List.filter_eq_nil_iff]
    intro term hterm
    rw [extractKeyTerms_included (cleanQuery q) term hterm]
    exact Bool.not_true ▸ (by simp)
  simp only [hemp, List.length_nil, Nat.lt_irrefl, if_false]
  split <;> rfl

/-! ## C7 — the Query Normalizer is idempotent on cleaned input -/

/-- `headNotWs` of a reverse is about the last character. -/
theorem headNotWs_reverse (l : List Char) :
    headNotWs l.reverse = l.getLast?.all fun c => !isWs c := by
  rw [headNotWs, List.head?_reverse]

/-- On an already lowercase and cleaned query the cleaning chain is just
the two abbreviation expansions. -/
theorem cleanQuery_of_cleaned (q : String) (hlower : jsLower q = q)
    (htrim : jsTrimList q.data = q.data) (hcollapse : collapseWs q.data = q.data)
    (hkeep : q.data.filter keepChar = q.data) :
    cleanQuery q = String.mk (replaceMl (replaceAi q.data)) := by
  rw [cleanQuery, hlower, htrim, hcollapse, hkeep]

/-- The expanded form of a cleaned query is itself lowercase, trimmed,
whitespace-collapsed, whitelist-pure, and free of further `ai`/`ml`
matches — so the cleaning chain fixes it. -/
theorem cleanQuery_fixes_expansion (q : String) (hlower : jsLower q = q)
    (htrim : jsTrimList q.data = q.data) (hcollapse : collapseWs q.data = q.data)
    (hkeep : q.data.filter keepChar = q.data) :
    cleanQuery (String.mk (replaceMl (replaceAi q.data))) =
      String.mk (replaceMl (replaceAi q.data)) := by
  set p := replaceMl (replaceAi q.data) with hp
  have hmem : ∀ c ∈ p, c ∈ q.data ∨ c ∈ "artificial intelligence".data ∨
      c ∈ "machine learning".data := by
    intro c hc
    rcases mem_replaceWord2 'm' 'l' _ true _ c hc with h | h
    · rcases mem_replaceWord2 'a' 'i' _ true _ c h with h' | h'
      · exact Or.inl h'
      · exact Or.inr (Or.inl h')
    · exact Or.inr (Or.inr h)
  have hlowp : jsLower (String.mk p) = String.mk p := by
    rw [jsLower]
    have hq : ∀ c ∈ q.data, c.toLower = c :=
      forall_of_map_eq_self Char.toLower q.data (congrArg String.data hlower)
    have hrepl : ∀ c, c ∈ "artificial intelligence".data ∨ c ∈ "machine learning".data →
        c.toLower = c := by
      intro c hc
      rcases hc with h | h <;> revert h <;> revert c <;> decide
    congr 1
    apply map_eq_self_of_forall
    intro c hc
    rcases hmem c hc with h | h
    · exact hq c h
    · exact hrepl c h
  have hkeepp : p.filter keepChar = p := by
    apply List.filter_eq_self.mpr
    intro c hc
    rcases hmem c hc with h | h
    · exact List.filter_eq_self.mp hkeep c h
    · rcases h with h | h
      · exact (by decide : ∀ c ∈ "artificial intelligence".data, keepChar c = true) c h
      · exact (by decide : ∀ c ∈ "machine learning".data, keepChar c = true) c h
  have hcolq := (collapseWs_eq_self_iff q.data).mp hcollapse
  rw [Bool.and_eq_true] at hcolq
  have hcolp : collapseWs p = p := by
    apply (collapseWs_eq_self_iff p).mpr
    rw [Bool.and_eq_true]
    constructor
    · exact wsIsSpace_replaceWord2 'm' 'l' _ (by decide) true _
        (wsIsSpace_replaceWord2 'a' 'i' _ (by decide) true _ hcolq.1)
    · exact noWsPair_replaceWord2 'm' 'l' _ (by decide) (by decide) (by decide) (by decide)
        true _ (noWsPair_replaceWord2 'a' 'i' _ (by decide) (by decide) (by decide) (by decide)
          true _ hcolq.2)
  have htrq := (jsTrimList_eq_self_iff q.data).mp htrim
  rw [Bool.and_eq_true] at htrq
  have hhp : p.head? = (replaceAi q.data).head? ∨
      p.head? = ("machine learning".data).head? := by
    rw [hp, replaceMl]
    exact head?_replaceWord2_mem 'm' 'l' "machine learning".data (by decide) true _
  have hha : (replaceAi q.data).head? = q.data.head? ∨
      (replaceAi q.data).head? = ("artificial intelligence".data).head? := by
    rw [replaceAi]
    exact head?_replaceWord2_mem 'a' 'i' "artificial intelligence".data (by decide) true _
  have hlp : p.getLast? = (replaceAi q.data).getLast? ∨
      p.getLast? = ("machine learning".data).getLast? := by
    rw [hp, replaceMl]
    exact getLast?_replaceWord2_mem 'm' 'l' "machine learning".data (by decide) true _
  have hla : (replaceAi q.data).getLast? = q.data.getLast? ∨
      (replaceAi q.data).getLast? = ("artificial intelligence".data).getLast? := by
    rw [replaceAi]
    exact getLast?_replaceWord2_mem 'a' 'i' "artificial intelligence".data (by decide) true _
  have htrp : jsTrimList p = p := by
    apply (jsTrimList_eq_self_iff p).mpr
    rw [Bool.and_eq_true]
    constructor
    · rw [headNotWs]
      rcases hhp with h | h
      · rcases hha with h' | h'
        · rw [h, h']
          rw [headNotWs] at htrq
          exact htrq.1
        · rw [h, h']
          decide
      · rw [h]
        decide
    · rw [headNotWs_reverse]
      rcases hlp with h | h
      · rcases hla with h' | h'
        · rw [h, h']
          rw [headNotWs_reverse] at htrq
          exact htrq.2
        · rw [h, h']
          decide
      · rw [h]
        decide
  rw [cleanQuery, hlowp]
  show String.mk (replaceMl (replaceAi ((collapseWs (jsTrimList p)).filter keepChar))) =
    String.mk p
  rw [htrp, hcolp, hkeepp, hp, replaceAi_cleanOut, replaceMl_cleanOut]

/-- C7: the Query Normalizer is idempotent on already lowercase and
cleaned queries: if lowercasing, trimming, whitespace-collapsing and the
character whitelist all leave `q` unchanged, then
`preprocessQuery (preprocessQuery q) = preprocessQuery q`. -/
theorem c7_normalizer_idempotent (q : String) (hlower : jsLower q = q)
    (htrim : jsTrimList q.data = q.data) (hcollapse : collapseWs q.data = q.data)
    (hkeep : q.data.filter keepChar = q.data) :
    preprocessQuery (preprocessQuery q) = preprocessQuery q := by
  rw [preprocessQuery_eq_cleanQuery, preprocessQuery_eq_cleanQuery,
    cleanQuery_of_cleaned q hlower htrim hcollapse hkeep]
  exact cleanQuery_fixes_expansion q hlower htrim hcollapse hkeep

/-- C7 witness: the already-clean query `"ai news"` (which the normalizer
expands to `"artificial intelligence news"`) is a fixed point of a second
normalization pass. -/
theorem c7_normalizer_idempotent_witness :
    preprocessQuery (preprocessQuery "ai news") = preprocessQuery "ai news" :=
  c7_normalizer_idempotent "ai news" (by decide) (by decide) (by decide) (by decide)

/-- C9 (amended): the Ranker's in-place sort only reorders the caller's
array — afterwards it holds a permutation of the original hits, each hit
element unchanged — and the Context Assembler never touches its input:
the messages it returns are a suffix of the input list, copied as-is. -/
theorem c9_amended (results : List SearchHit) (messages : List ConversationMessage)
    (maxTokens : Nat) :
    (postProcessInputAfterCall results).Perm results ∧
      (manageConversationContext messages maxTokens).messages <:+ messages := by
  constructor
  · exact List.perm_insertionSort _ results
  · obtain ⟨l', hpre, heq⟩ := manageLoop_prefix maxTokens messages.reverse 0 []
    show (manageLoop maxTokens messages.reverse 0 []).1 <:+ messages
    rw [heq, List.append_nil]
    rw [← List.reverse_reverse messages]
    exact List.reverse_suffix.mpr hpre

end Ragbackend
